import Mathlib

/-!
Verification of the internal-link resolution core in
`src/components/utils/src/site.rs`.

Modelling conventions:
* Rust `&str` / `String` values are modelled as `List Char` (the sequence of
  Unicode scalar values of the string).  Byte-level operations (percent
  decoding, UTF-8) work on `List Nat`, each element a byte value `< 256`.
* `HashMap<String, String>` is modelled as an association list with
  first-match lookup; the table invariant (unique keys) makes this
  observationally identical to the hash map.
* `anyhow::Result` is modelled as `Except (List Char)`, the error carrying
  the formatted message.
* Paths follow the Unix rules of `std::path` (no Windows prefix components).
* `Path::canonicalize` performs filesystem I/O; it is modelled as an
  explicit oracle `fs : List Char → Option (List Char)` passed to
  `canonicalize_relative_path`, where `none` means the OS call failed
  (e.g. the target does not exist) and `some c` means it succeeded with
  result `c`.
-/

set_option maxRecDepth 4000

/-- Hex digit value, as `char::to_digit(16)` accepts: `0-9`, `a-f`, `A-F`. -/
def hexVal (b : Nat) : Option Nat :=
  if 48 ≤ b ∧ b ≤ 57 then some (b - 48)
  else if 97 ≤ b ∧ b ≤ 102 then some (b - 87)
  else if 65 ≤ b ∧ b ≤ 70 then some (b - 55)
  else none

/-- UTF-8 encoding of one Unicode scalar value, as a list of bytes. -/
def utf8EncodeChar (c : Char) : List Nat :=
  let n := c.toNat
  if n < 0x80 then [n]
  else if n < 0x800 then [0xC0 + n / 0x40, 0x80 + n % 0x40]
  else if n < 0x10000 then
    [0xE0 + n / 0x1000, 0x80 + n / 0x40 % 0x40, 0x80 + n % 0x40]
  else
    [0xF0 + n / 0x40000, 0x80 + n / 0x1000 % 0x40, 0x80 + n / 0x40 % 0x40,
      0x80 + n % 0x40]

/-- Is `b` a UTF-8 continuation byte (`0x80..=0xBF`)? -/
def isCont (b : Nat) : Bool := decide (0x80 ≤ b ∧ b ≤ 0xBF)

/-- Valid range for the first continuation byte after leading byte `b`,
following the UTF-8 validation table (excludes overlong forms, surrogates
and scalar values above `0x10FFFF`). -/
def cont1Ok (b c1 : Nat) : Bool :=
  if b = 0xE0 then decide (0xA0 ≤ c1 ∧ c1 ≤ 0xBF)
  else if b = 0xED then decide (0x80 ≤ c1 ∧ c1 ≤ 0x9F)
  else if b = 0xF0 then decide (0x90 ≤ c1 ∧ c1 ≤ 0xBF)
  else if b = 0xF4 then decide (0x80 ≤ c1 ∧ c1 ≤ 0x8F)
  else isCont c1

/-- The Unicode replacement character U+FFFD. -/
def replChar : Char := Char.ofNat 0xFFFD

/-- Modelled from the trusted library primitive `String::from_utf8_lossy`
(which `percent_encoding::decode_utf8_lossy` delegates to): decodes a byte
sequence as UTF-8, substituting U+FFFD for each maximal invalid subpart. -/
def utf8LossyDecode : List Nat → List Char
  | [] => []
  | b :: rest =>
    if b ≤ 0x7F then Char.ofNat b :: utf8LossyDecode rest
    else if 0xC2 ≤ b ∧ b ≤ 0xDF then
      match rest with
      | c1 :: t =>
        if isCont c1 then
          Char.ofNat ((b - 0xC0) * 0x40 + (c1 - 0x80)) :: utf8LossyDecode t
        else replChar :: utf8LossyDecode (c1 :: t)
      | [] => [replChar]
    else if 0xE0 ≤ b ∧ b ≤ 0xEF then
      match rest with
      | c1 :: c2 :: t =>
        if cont1Ok b c1 then
          if isCont c2 then
            Char.ofNat ((b - 0xE0) * 0x1000 + (c1 - 0x80) * 0x40 + (c2 - 0x80))
              :: utf8LossyDecode t
          else replChar :: utf8LossyDecode (c2 :: t)
        else replChar :: utf8LossyDecode (c1 :: c2 :: t)
      | [c1] => if cont1Ok b c1 then [replChar] else replChar :: utf8LossyDecode [c1]
      | [] => [replChar]
    else if 0xF0 ≤ b ∧ b ≤ 0xF4 then
      match rest with
      | c1 :: c2 :: c3 :: t =>
        if cont1Ok b c1 then
          if isCont c2 then
            if isCont c3 then
              Char.ofNat ((b - 0xF0) * 0x40000 + (c1 - 0x80) * 0x1000 +
                (c2 - 0x80) * 0x40 + (c3 - 0x80)) :: utf8LossyDecode t
            else replChar :: utf8LossyDecode (c3 :: t)
          else replChar :: utf8LossyDecode (c2 :: c3 :: t)
        else replChar :: utf8LossyDecode (c1 :: c2 :: c3 :: t)
      | [c1, c2] =>
        if cont1Ok b c1 then
          if isCont c2 then [replChar] else replChar :: utf8LossyDecode [c2]
        else replChar :: utf8LossyDecode [c1, c2]
      | [c1] => if cont1Ok b c1 then [replChar] else replChar :: utf8LossyDecode [c1]
      | [] => [replChar]
    else replChar :: utf8LossyDecode rest

/-- Modelled from the trusted library primitive
`percent_encoding::percent_decode`: a `%` followed by two hex digits decodes
to that byte; a `%` not followed by two hex digits is passed through, and
scanning resumes at the byte right after the `%`. -/
def percentDecodeBytes : List Nat → List Nat
  | [] => []
  | 37 :: h :: l :: t =>
    match hexVal h, hexVal l with
    | some hv, some lv => (hv * 0x10 + lv) :: percentDecodeBytes t
    | _, _ => 37 :: percentDecodeBytes (h :: l :: t)
  | b :: rest => b :: percentDecodeBytes rest

/-- Composition `percent_decode(s.as_bytes()).decode_utf8_lossy().to_string()`:
encode the characters to UTF-8 bytes, percent-decode byte-wise, then decode
back as UTF-8 with lossy replacement. -/
def percentDecodeLossy (s : List Char) : List Char :=
  utf8LossyDecode (percentDecodeBytes (List.flatten (s.map utf8EncodeChar)))

/-- Function `extract_anchor`: splits the link at the first `#`; the base is
everything before it, the anchor everything after it (`None` when there is
no `#`). -/
def extract_anchor : List Char → List Char × Option (List Char)
  | [] => ([], none)
  | c :: t =>
    if c = '#' then ([], some t)
    else ((c :: (extract_anchor t).1), (extract_anchor t).2)

/-- Function `combine_anchor`: the formatted `link#anchor` string when an
anchor is present,
the link unchanged otherwise. -/
def combine_anchor (link : List Char) (anchor : Option (List Char)) : List Char :=
  match anchor with
  | some a => link ++ '#' :: a
  | none => link

/-- Expression `link.strip_prefix("@/").unwrap_or(link)`: removes one leading `@/`
when present, otherwise returns the link unchanged. -/
def stripZola (l : List Char) : List Char :=
  match l with
  | c :: d :: t => if c = '@' ∧ d = '/' then t else l
  | _ => l

/-- Function `get_permalink_key_from_link`: strip the zola-specific `@/`, split off
the anchor, percent-decode the remaining base (UTF-8 lossy). -/
def get_permalink_key_from_link (link : List Char) : List Char × Option (List Char) :=
  let clean_link := stripZola link
  let p := extract_anchor clean_link
  (percentDecodeLossy p.1, p.2)

/-- Output of a successful internal-link resolution
(struct `ResolvedInternalLink`). -/
structure ResolvedInternalLink where
  permalink : List Char
  md_path : List Char
  anchor : Option (List Char)
deriving DecidableEq

deriving instance DecidableEq for Except

/-- Lookup `HashMap::get` on a table with unique keys, modelled as first-match
lookup in an association list. -/
def lookupKey : List (List Char × List Char) → List Char → Option (List Char)
  | [], _ => none
  | (k, v) :: t, key => if k = key then some v else lookupKey t key

/-- The `anyhow!("Relative link {} not found.", link)` message. -/
def linkNotFoundMsg (link : List Char) : List Char :=
  "Relative link ".toList ++ link ++ " not found.".toList

/-- Function `resolve_internal_link`: look the decoded key up in the permalink
table; on a miss fail with the formatted message; on a hit build the
resolved link. -/
def resolve_internal_link (link : List Char)
    (permalinks : List (List Char × List Char)) :
    Except (List Char) ResolvedInternalLink :=
  match lookupKey permalinks (get_permalink_key_from_link link).1 with
  | none => Except.error (linkNotFoundMsg link)
  | some target =>
    Except.ok ⟨combine_anchor target (get_permalink_key_from_link link).2,
      (get_permalink_key_from_link link).1, (get_permalink_key_from_link link).2⟩

/-- Function `is_link_internal_page`: membership of the decoded key in the table. -/
def is_link_internal_page (link : List Char)
    (permalinks : List (List Char × List Char)) : Bool :=
  (lookupKey permalinks (get_permalink_key_from_link link).1).isSome

/-- The fixed protocol / reserved prefixes recognised by
`link_has_protocol_or_zola`. -/
def protoPrefixes : List (List Char) :=
  ["http://".toList, "https://".toList, "mailto:".toList, "ftp://".toList,
    "file://".toList, "@/".toList]

/-- Function `link_has_protocol_or_zola`: does the link start with one of the fixed
protocol strings or with `@/`? Case-sensitive, no normalization. -/
def link_has_protocol_or_zola (link : List Char) : Bool :=
  protoPrefixes.any (fun p => p.isPrefixOf link)

/-- Predicate `Path::is_absolute` on Unix: the path has a root, i.e. starts with
`/`. -/
def isAbsolute (l : List Char) : Bool := decide (l.head? = some '/')

/-- Split a path string at every `/` (fields may be empty). -/
def splitSlash : List Char → List (List Char)
  | [] => [[]]
  | c :: t =>
    if c = '/' then [] :: splitSlash t
    else
      match splitSlash t with
      | h :: r => (c :: h) :: r
      | [] => [[c]]

/-- Type `std::path::Component`, on Unix (no Windows `Prefix` components). -/
inductive PComponent where
  | rootDir
  | curDir
  | parentDir
  | normal (s : List Char)
deriving DecidableEq

/-- Classify one non-empty path segment. -/
def classifyPart (p : List Char) : PComponent :=
  if p = ['.'] then PComponent.curDir
  else if p = ['.', '.'] then PComponent.parentDir
  else PComponent.normal p

/-- Iterator `Path::components()` on Unix: a leading `/` yields `RootDir`; empty
segments (repeated or trailing separators) are dropped; `.` segments are
dropped except a leading `.` of a relative path; `..` is `ParentDir`;
anything else is `Normal`. -/
def pathComponents (s : List Char) : List PComponent :=
  (if isAbsolute s then [PComponent.rootDir] else []) ++
    (if isAbsolute s = false ∧
        ((splitSlash s).filter (fun p => p ≠ ([] : List Char))).head? = some ['.']
      then [PComponent.curDir] else []) ++
    (((splitSlash s).filter (fun p => p ≠ ([] : List Char))).map
      classifyPart).filter (fun c => c ≠ PComponent.curDir)

/-- The state of the `resolved : PathBuf` accumulator: whether the buffer
is rooted, and the list of pushed normal components. -/
structure PathBufM where
  absolute : Bool
  comps : List (List Char)
deriving DecidableEq

/-- One iteration of the manual normalization loop: `RootDir` is pushed
(pushing an absolute path onto a `PathBuf` replaces its contents),
`ParentDir` pops the last pushed component (`PathBuf::pop` is a no-op on an
empty or root-only buffer), `CurDir` is skipped, `Normal` is pushed. -/
def stepComponent (pb : PathBufM) : PComponent → PathBufM
  | PComponent.rootDir => ⟨true, []⟩
  | PComponent.parentDir => ⟨pb.absolute, pb.comps.dropLast⟩
  | PComponent.curDir => pb
  | PComponent.normal n => ⟨pb.absolute, pb.comps ++ [n]⟩

/-- The manual fallback loop of `canonicalize_relative_path` over the
components of the combined path. -/
def resolveComponents (cs : List PComponent) : PathBufM :=
  cs.foldl stepComponent ⟨false, []⟩

/-- Join pushed components with `/` separators, as consecutive
`PathBuf::push` calls do. -/
def joinComps : List (List Char) → List Char
  | [] => []
  | [x] => x
  | x :: r => x ++ '/' :: joinComps r

/-- Render the accumulated `PathBuf` back to a string: a rooted buffer
starts with `/`, components are joined with `/`. -/
def renderPath (pb : PathBufM) : List Char :=
  (if pb.absolute then ['/'] else []) ++ joinComps pb.comps

/-- The purely lexical normalization: components of the combined path fed
through the fold, rendered back. -/
def lexicalNormalize (s : List Char) : List Char :=
  renderPath (resolveComponents (pathComponents s))

/-- Everything before the last `/` of `p` (used for `&p[..pos]` with
`pos = p.rfind('/')`); `p` itself when it contains no `/`. -/
def dirname (p : List Char) : List Char :=
  if '/' ∈ p then ((p.reverse.dropWhile (fun c => c ≠ '/')).tail).reverse
  else p

/-- The base path derivation of `canonicalize_relative_path`: for a page
path ending in `.md` the parent directory (everything before the last `/`,
or the whole string when it has no `/`); otherwise the page path itself;
empty when no page path is given. -/
def baseDirOf : Option (List Char) → List Char
  | some p => if ['.', 'm', 'd'].isSuffixOf p then dirname p else p
  | none => []

/-- Join `PathBuf::push` of a relative path: appended with a `/` separator
unless the base is empty or already ends in `/`. -/
def joinPath (base link : List Char) : List Char :=
  if base = [] then link
  else if base.getLast? = some '/' then base ++ link
  else base ++ '/' :: link

/-- The combined path of `canonicalize_relative_path`: the link itself when
absolute, otherwise the base joined with the link. -/
def combinedOf (link : List Char) (current_page_path : Option (List Char)) :
    List Char :=
  if isAbsolute link then link else joinPath (baseDirOf current_page_path) link

/-- Function `canonicalize_relative_path`: protocol-qualified and `@/` links are
returned unchanged; otherwise the combined path is canonicalized by the
filesystem oracle when that succeeds, and by the manual lexical
normalization when it fails.  (The final `to_str` never fails in this
model, since modelled strings are always valid Unicode, so the
`unwrap_or_else` branch returning the original link is dead.) -/
def canonicalize_relative_path (fs : List Char → Option (List Char))
    (link : List Char) (current_page_path : Option (List Char)) : List Char :=
  if link_has_protocol_or_zola link then link
  else
    match fs (combinedOf link current_page_path) with
    | some c => c
    | none => lexicalNormalize (combinedOf link current_page_path)

/-- The filesystem oracle of a build environment where the OS-level
canonicalization always fails (the referenced targets do not exist). -/
def fsNone : List Char → Option (List Char) := fun _ => none
/-- Function `extract_anchor` on a link without `#` returns the link and no anchor. -/
theorem extract_anchor_no_hash (l : List Char) (h : '#' ∉ l) :
    extract_anchor l = (l, none) := by
  induction l with
  | nil => rfl
  | cons c t ih =>
    have hc : ¬ c = '#' := fun e => h (e ▸ List.mem_cons_self c t)
    have ht : '#' ∉ t := fun m => h (List.mem_cons_of_mem c m)
    simp [extract_anchor, hc, ih ht]

/-- Function `extract_anchor` splits at the first `#`: for a base without `#`, the
anchor is everything after that `#`, verbatim. -/
theorem extract_anchor_first_hash (p s : List Char) (h : '#' ∉ p) :
    extract_anchor (p ++ '#' :: s) = (p, some s) := by
  induction p with
  | nil => simp [extract_anchor]
  | cons c t ih =>
    have hc : ¬ c = '#' := fun e => h (e ▸ List.mem_cons_self c t)
    have ht : '#' ∉ t := fun m => h (List.mem_cons_of_mem c m)
    simp [extract_anchor, hc, ih ht]

/-- If a link does not start with `@/`, `stripZola` leaves it unchanged. -/
theorem stripZola_of_no_zola (l : List Char)
    (h : ¬ (['@', '/'].isPrefixOf l = true)) : stripZola l = l := by
  match l with
  | [] => rfl
  | [c] => rfl
  | c :: d :: t =>
    have hcd : ¬ (c = '@' ∧ d = '/') := by
      rintro ⟨rfl, rfl⟩
      exact h (by simp [List.isPrefixOf])
    simp [stripZola, hcd]

/-- Function `stripZola` removes exactly one leading `@/`. -/
theorem stripZola_zola (l : List Char) : stripZola ('@' :: '/' :: l) = l := by
  simp [stripZola]

/-- Unfolding lemma for `splitSlash` on a cons cell. -/
theorem splitSlash_cons (c : Char) (t : List Char) :
    splitSlash (c :: t) = if c = '/' then [] :: splitSlash t else
      match splitSlash t with
      | h :: r => (c :: h) :: r
      | [] => [[c]] := rfl

/-- Function `splitSlash` always produces at least one field. -/
theorem splitSlash_ne_nil (l : List Char) : splitSlash l ≠ [] := by
  cases l with
  | nil => simp [splitSlash]
  | cons c t =>
    by_cases hc : c = '/'
    · simp [splitSlash, hc]
    · simp only [splitSlash, hc, if_false]
      cases h : splitSlash t with
      | nil => simp
      | cons a r => simp

/-- Appending a trailing `/` appends one empty field to the split. -/
theorem splitSlash_append_slash (l : List Char) :
    splitSlash (l ++ ['/']) = splitSlash l ++ [[]] := by
  induction l with
  | nil => simp [splitSlash]
  | cons c t ih =>
    by_cases hc : c = '/'
    · simp only [List.cons_append, splitSlash_cons, if_pos hc, ih]
    · cases h : splitSlash t with
      | nil => exact absurd h (splitSlash_ne_nil t)
      | cons a r =>
        rw [List.cons_append, splitSlash_cons, splitSlash_cons, if_neg hc,
          if_neg hc, ih, h]
        rfl

/-- A string without `/` splits as a single field. -/
theorem splitSlash_no_slash (l : List Char) (h : '/' ∉ l) :
    splitSlash l = [l] := by
  induction l with
  | nil => rfl
  | cons c t ih =>
    have hc : ¬ c = '/' := fun e => h (e ▸ List.mem_cons_self c t)
    have ht : '/' ∉ t := fun m => h (List.mem_cons_of_mem c m)
    simp only [splitSlash, hc, if_false, ih ht]

/-- Appending to a non-empty string does not change whether it is
absolute. -/
theorem isAbsolute_append (l u : List Char) (h : l ≠ []) :
    isAbsolute (l ++ u) = isAbsolute l := by
  cases l with
  | nil => exact absurd rfl h
  | cons c t => simp [isAbsolute]

/-- A trailing `/` does not change the component list of a non-empty
path. -/
theorem pathComponents_append_slash (l : List Char) (h : l ≠ []) :
    pathComponents (l ++ ['/']) = pathComponents l := by
  unfold pathComponents
  rw [splitSlash_append_slash, List.filter_append, isAbsolute_append l _ h]
  simp

/-- Appending to a non-empty link factors through `joinPath`. -/
theorem combinedOf_append (l u : List Char) (c : Option (List Char))
    (h : l ≠ []) :
    combinedOf (l ++ u) c = combinedOf l c ++ u := by
  unfold combinedOf
  rw [isAbsolute_append l u h]
  cases habs : isAbsolute l with
  | true => simp
  | false =>
    simp only [Bool.false_eq_true, if_false]
    unfold joinPath
    by_cases hb : baseDirOf c = []
    · simp [hb]
    · by_cases hsl : (baseDirOf c).getLast? = some '/'
      · simp [hb, hsl, List.append_assoc]
      · simp [hb, hsl, List.append_assoc]

/-- The combined path of a non-empty link is non-empty. -/
theorem combinedOf_ne_nil (l : List Char) (c : Option (List Char))
    (h : l ≠ []) : combinedOf l c ≠ [] := by
  unfold combinedOf
  cases habs : isAbsolute l with
  | true => simpa using h
  | false =>
    simp only [Bool.false_eq_true, if_false]
    unfold joinPath
    by_cases hb : baseDirOf c = []
    · simpa [hb] using h
    · by_cases hsl : (baseDirOf c).getLast? = some '/'
      · simp [hb, hsl]
      · simp [hb, hsl]

/-- Prefix tests are monotone under appending to the link. -/
theorem proto_append (l u : List Char)
    (h : link_has_protocol_or_zola l = true) :
    link_has_protocol_or_zola (l ++ u) = true := by
  unfold link_has_protocol_or_zola at h ⊢
  rw [List.any_eq_true] at h ⊢
  obtain ⟨p, hp, hpre⟩ := h
  refine ⟨p, hp, ?_⟩
  rw [ List.isPrefixOf_iff_prefix] at hpre ⊢
  exact hpre.trans (List.prefix_append l u)

/-- Once the accumulator is rooted, the normalization loop never removes
the root marker. -/
theorem foldl_step_absolute (cs : List PComponent) (pb : PathBufM)
    (h : pb.absolute = true) :
    (List.foldl stepComponent pb cs).absolute = true := by
  induction cs generalizing pb with
  | nil => exact h
  | cons c t ih =>
    cases c <;> exact ih _ (by simp [stepComponent, h])

/-- The lexical normalization of an absolute path starts with `/`. -/
theorem lexicalNormalize_head (s : List Char) (h : isAbsolute s = true) :
    (lexicalNormalize s).head? = some '/' := by
  unfold lexicalNormalize pathComponents resolveComponents
  rw [h]
  simp only [if_pos, Bool.true_eq_false, false_and, if_neg, if_false]
  simp only [List.cons_append, List.nil_append, List.foldl_cons]
  unfold renderPath
  rw [foldl_step_absolute _ _ (by simp [stepComponent])]
  simp

/-- Appending a slash-free suffix extends the last field of the split. -/
theorem splitSlash_append_no_slash (s u : List Char) (hu : '/' ∉ u) :
    ∃ front last, splitSlash s = front ++ [last] ∧
      splitSlash (s ++ u) = front ++ [last ++ u] := by
  induction s with
  | nil =>
    exact ⟨[], [], rfl, by simp [splitSlash_no_slash u hu]⟩
  | cons c s ih =>
    obtain ⟨front, last, h1, h2⟩ := ih
    by_cases hc : c = '/'
    · refine ⟨[] :: front, last, ?_, ?_⟩
      · rw [splitSlash_cons, if_pos hc, h1]; rfl
      · rw [List.cons_append, splitSlash_cons, if_pos hc, h2]; rfl
    · cases front with
      | nil =>
        refine ⟨[], c :: last, ?_, ?_⟩
        · rw [splitSlash_cons, if_neg hc, h1]; rfl
        · rw [List.cons_append, splitSlash_cons, if_neg hc, h2]; rfl
      | cons f fr =>
        refine ⟨(c :: f) :: fr, last, ?_, ?_⟩
        · rw [splitSlash_cons, if_neg hc, h1]; rfl
        · rw [List.cons_append, splitSlash_cons, if_neg hc, h2]; rfl

/-- A segment containing `#` is a `Normal` component. -/
theorem classifyPart_hash (p : List Char) (h : '#' ∈ p) :
    classifyPart p = PComponent.normal p := by
  unfold classifyPart
  rw [if_neg, if_neg]
  · rintro rfl; simp at h
  · rintro rfl; simp at h

/-- Pushing a `Normal` component appends it to the accumulator. -/
theorem resolveComponents_append_normal (cs : List PComponent) (n : List Char) :
    resolveComponents (cs ++ [PComponent.normal n]) =
      ⟨(resolveComponents cs).absolute, (resolveComponents cs).comps ++ [n]⟩ := by
  unfold resolveComponents
  rw [List.foldl_append]
  rfl

/-- The rendering of components ending in `n` ends in `n`. -/
theorem joinComps_append_last (xs : List (List Char)) (n : List Char) :
    ∃ pre, joinComps (xs ++ [n]) = pre ++ n := by
  induction xs with
  | nil => exact ⟨[], rfl⟩
  | cons x xs ih =>
    cases xs with
    | nil => exact ⟨x ++ ['/'], by simp [joinComps]⟩
    | cons y ys =>
      obtain ⟨pre, hpre⟩ := ih
      refine ⟨x ++ '/' :: pre, ?_⟩
      have : joinComps (x :: (y :: ys ++ [n])) =
          x ++ '/' :: joinComps (y :: ys ++ [n]) := rfl
      rw [List.cons_append, this, hpre]
      simp

/-- Rendering a buffer whose last component carries a `#`-suffix ends with
that suffix. -/
theorem renderPath_append_hash (pb : PathBufM) (last x : List Char) :
    ∃ pre, renderPath ⟨pb.absolute, pb.comps ++ [last ++ '#' :: x]⟩ =
      pre ++ '#' :: x := by
  obtain ⟨pre1, h⟩ := joinComps_append_last pb.comps (last ++ '#' :: x)
  unfold renderPath
  dsimp only
  rw [h]
  exact ⟨(if pb.absolute then ['/'] else []) ++ (pre1 ++ last),
    by simp [List.append_assoc]⟩

/-- A `#`-suffix without `/` survives the lexical normalization at the
end of the result. -/
theorem lexicalNormalize_anchor (s x : List Char) (hx : '/' ∉ x) :
    ∃ pre, lexicalNormalize (s ++ '#' :: x) = pre ++ '#' :: x := by
  have hu : ('/' : Char) ∉ '#' :: x := by
    intro h
    rcases List.mem_cons.mp h with h | h
    · exact absurd h (by decide)
    · exact hx h
  obtain ⟨front, last, _h1, h2⟩ := splitSlash_append_no_slash s ('#' :: x) hu
  have hmem : '#' ∈ last ++ '#' :: x := by simp
  unfold lexicalNormalize pathComponents
  rw [h2, List.filter_append]
  have hf : List.filter (fun p => decide (p ≠ ([] : List Char)))
      [last ++ '#' :: x] = [last ++ '#' :: x] := by simp
  rw [hf, List.map_append, List.map_cons, List.map_nil,
    classifyPart_hash _ hmem, List.filter_append]
  have hf2 : List.filter (fun c => decide (c ≠ PComponent.curDir))
      [PComponent.normal (last ++ '#' :: x)] =
      [PComponent.normal (last ++ '#' :: x)] := by simp
  rw [hf2]
  simp only [← List.append_assoc]
  rw [resolveComponents_append_normal]
  exact renderPath_append_hash _ last x

/-- The combined path of `link ++ u` is `u` appended to some prefix. -/
theorem combinedOf_factor (l u : List Char) (c : Option (List Char)) :
    ∃ s, combinedOf (l ++ u) c = s ++ u := by
  by_cases hl : l = []
  · subst hl
    simp only [List.nil_append]
    unfold combinedOf
    cases habs : isAbsolute u with
    | true => exact ⟨[], by simp⟩
    | false =>
      simp only [Bool.false_eq_true, if_false]
      unfold joinPath
      by_cases hb : baseDirOf c = []
      · exact ⟨[], by simp [hb]⟩
      · by_cases hsl : (baseDirOf c).getLast? = some '/'
        · exact ⟨baseDirOf c, by simp [hb, hsl]⟩
        · exact ⟨baseDirOf c ++ ['/'], by simp [hb, hsl, List.append_assoc]⟩
  · exact ⟨combinedOf l c, combinedOf_append l u c hl⟩
/-- C1: for every link and permalink table, if the decoded key computed by
`get_permalink_key_from_link` is present in the table, `resolve_internal_link`
succeeds and returns a result whose permalink is the table value with `#`
followed by the anchor appended exactly when an anchor was extracted (no
anchor yields the bare permalink), whose `md_path` is the decoded key, and
whose `anchor` is the extracted anchor. -/
theorem c1_resolve_internal_link_hit (link : List Char)
    (perms : List (List Char × List Char)) (target : List Char)
    (h : lookupKey perms (get_permalink_key_from_link link).1 = some target) :
    resolve_internal_link link perms = Except.ok
      ⟨(match (get_permalink_key_from_link link).2 with
        | some a => target ++ '#' :: a
        | none => target),
        (get_permalink_key_from_link link).1,
        (get_permalink_key_from_link link).2⟩ := by
  unfold resolve_internal_link
  rw [h]
  cases ha : (get_permalink_key_from_link link).2 <;> simp [combine_anchor, ha]

/-- Witness for C1 on the repository's own test data. -/
theorem c1_resolve_internal_link_hit_witness :
    resolve_internal_link "@/pages/about.md#hello".toList
      [("pages/about.md".toList, "https://vincent.is/about".toList)] =
    Except.ok ⟨"https://vincent.is/about#hello".toList,
      "pages/about.md".toList, some "hello".toList⟩ := by
  have h := c1_resolve_internal_link_hit "@/pages/about.md#hello".toList
    [("pages/about.md".toList, "https://vincent.is/about".toList)]
    "https://vincent.is/about".toList (by decide)
  exact h.trans (by decide)

/-- C2: on a miss of the decoded key, `resolve_internal_link` fails with a
message carrying the original unmodified input link (never the decoded
key); in particular against the empty table it fails for every non-empty
link. -/
theorem c2_resolve_internal_link_miss :
    (∀ (link : List Char) (perms : List (List Char × List Char)),
      lookupKey perms (get_permalink_key_from_link link).1 = none →
      resolve_internal_link link perms =
        Except.error ("Relative link ".toList ++ link ++ " not found.".toList)) ∧
    (∀ link : List Char, link ≠ [] →
      resolve_internal_link link [] =
        Except.error ("Relative link ".toList ++ link ++ " not found.".toList)) := by
  constructor
  · intro link perms h
    unfold resolve_internal_link
    rw [h]
    rfl
  · intro link _
    rfl

/-- Witness for C2: the missing-link test of the repository. -/
theorem c2_resolve_internal_link_miss_witness :
    resolve_internal_link "@/pages/about.md#hello".toList [] =
      Except.error ("Relative link ".toList ++ "@/pages/about.md#hello".toList
        ++ " not found.".toList) :=
  c2_resolve_internal_link_miss.2 "@/pages/about.md#hello".toList (by decide)

/-- C7: the non-failing probe `is_link_internal_page` returns true exactly
when `resolve_internal_link` succeeds, both computing the same decoded
key. -/
theorem c7_probe_iff_resolve :
    ∀ (link : List Char) (perms : List (List Char × List Char)),
      is_link_internal_page link perms = true ↔
        ∃ r, resolve_internal_link link perms = Except.ok r := by
  intro link perms
  unfold is_link_internal_page resolve_internal_link
  cases h : lookupKey perms (get_permalink_key_from_link link).1 <;> simp [h]

/-- Witness for C7 on the repository's own test data. -/
theorem c7_probe_iff_resolve_witness :
    is_link_internal_page "@/some/path".toList
        [("some/path".toList, "some/path".toList)] = true ↔
      ∃ r, resolve_internal_link "@/some/path".toList
        [("some/path".toList, "some/path".toList)] = Except.ok r :=
  c7_probe_iff_resolve "@/some/path".toList
    [("some/path".toList, "some/path".toList)]

/-- C4: `get_permalink_key_from_link` strips one leading `@/` when present
and accepts plain links identically; the remainder is split at the first
`#` (everything after it, including further `#` characters, is the anchor
verbatim, an empty anchor being distinct from no anchor); only the base
portion is percent-decoded (byte-wise UTF-8 with lossy replacement; total
by construction, it never fails); in particular input
`@/pages/about%20space.md` produces the stored key
`pages/about space.md`. -/
theorem c4_get_permalink_key_from_link :
    (∀ l : List Char, get_permalink_key_from_link ('@' :: '/' :: l) =
      (percentDecodeLossy (extract_anchor l).1, (extract_anchor l).2)) ∧
    (∀ l : List Char, ['@', '/'].isPrefixOf l = false →
      get_permalink_key_from_link l =
        (percentDecodeLossy (extract_anchor l).1, (extract_anchor l).2)) ∧
    (∀ p s : List Char, '#' ∉ p →
      extract_anchor (p ++ '#' :: s) = (p, some s)) ∧
    (∀ l : List Char, '#' ∉ l → extract_anchor l = (l, none)) ∧
    get_permalink_key_from_link "@/pages/about%20space.md".toList =
      ("pages/about space.md".toList, none) := by
  refine ⟨?_, ?_, extract_anchor_first_hash, extract_anchor_no_hash, by decide⟩
  · intro l
    unfold get_permalink_key_from_link
    rw [stripZola_zola]
  · intro l h
    unfold get_permalink_key_from_link
    rw [stripZola_of_no_zola l (by simp [h])]

/-- Witness for C4: a plain link without the reserved prefix. -/
theorem c4_get_permalink_key_from_link_witness :
    get_permalink_key_from_link "pages/x.md".toList =
      (percentDecodeLossy (extract_anchor "pages/x.md".toList).1,
        (extract_anchor "pages/x.md".toList).2) :=
  c4_get_permalink_key_from_link.2.1 "pages/x.md".toList (by decide)

/-- C5: `link_has_protocol_or_zola` is true exactly when the link starts
(case-sensitively) with one of `http://`, `https://`, `mailto:`, `ftp://`,
`file://`, `@/`; and every such link is returned byte-for-byte unchanged
by `canonicalize_relative_path` regardless of the current page path (and
of the filesystem oracle). -/
theorem c5_link_classifier :
    (∀ link : List Char, link_has_protocol_or_zola link = true ↔
      ("http://".toList.isPrefixOf link = true ∨
       "https://".toList.isPrefixOf link = true ∨
       "mailto:".toList.isPrefixOf link = true ∨
       "ftp://".toList.isPrefixOf link = true ∨
       "file://".toList.isPrefixOf link = true ∨
       "@/".toList.isPrefixOf link = true)) ∧
    (∀ (fs : List Char → Option (List Char)) (link : List Char)
      (cur : Option (List Char)), link_has_protocol_or_zola link = true →
      canonicalize_relative_path fs link cur = link) := by
  constructor
  · intro link
    simp [link_has_protocol_or_zola, protoPrefixes, List.any_cons,
      List.any_nil, Bool.or_eq_true]
  · intro fs link cur h
    unfold canonicalize_relative_path
    rw [h]
    rfl

/-- Witness for C5: a protocol link passes through unchanged. -/
theorem c5_link_classifier_witness :
    canonicalize_relative_path fsNone "http://a/../b".toList
      (some "/base".toList) = "http://a/../b".toList :=
  c5_link_classifier.2 fsNone "http://a/../b".toList
    (some "/base".toList) (by decide)

/-- C8 counterexample: when the link itself contains `#`, the round trip
fails: combining `a#b` with anchor `c` and re-extracting yields
`(a, b#c)`, not `(a#b, c)`. -/
theorem c8_round_trip_counterexample :
    ¬ (extract_anchor (combine_anchor "a#b".toList (some "c".toList)) =
      ("a#b".toList, some "c".toList)) := by decide

/-- C8 (amended): for every link containing no `#` and every present,
non-empty anchor, `extract_anchor` after `combine_anchor` recovers the
original pair. -/
theorem c8_round_trip_amended :
    ∀ (link anchor : List Char), '#' ∉ link → anchor ≠ [] →
      extract_anchor (combine_anchor link (some anchor)) =
        (link, some anchor) := by
  intro l a hl _
  unfold combine_anchor
  exact extract_anchor_first_hash l a hl

/-- Witness for the amended C8. -/
theorem c8_round_trip_amended_witness :
    extract_anchor (combine_anchor "a".toList (some "b#c".toList)) =
      ("a".toList, some "b#c".toList) :=
  c8_round_trip_amended "a".toList "b#c".toList (by decide) (by decide)

/-- C10: `combine_anchor` applied to the pair returned by `extract_anchor`
is the identity on every string, without restriction. -/
theorem c10_combine_extract_id :
    ∀ l : List Char,
      combine_anchor (extract_anchor l).1 (extract_anchor l).2 = l := by
  intro l
  induction l with
  | nil => rfl
  | cons c t ih =>
    by_cases hc : c = '#'
    · subst hc; simp [extract_anchor, combine_anchor]
    · simp only [extract_anchor, hc, if_false]
      cases ha : (extract_anchor t).2 with
      | none =>
        rw [ha] at ih
        simp only [combine_anchor] at ih ⊢
        rw [ih]
      | some a =>
        rw [ha] at ih
        simp only [combine_anchor] at ih ⊢
        rw [List.cons_append, ih]

/-- C3: lexical laws of the canonicalizer (when the OS canonicalization
fails, which is the contractually relied-upon path): a trailing slash in
the input never changes the result (and the trailing-slash test instance),
a slash-free `#`-anchor suffix survives unchanged at the end (and the
`#xyz` test instance), and the enumerated concrete mappings with base
`/base`, including the `.md` base-directory derivation with current page
path `/base/second/file.md`. -/
theorem c3_canonicalize_lexical_laws :
    (∀ (fs : List Char → Option (List Char)) (link : List Char)
      (cur : Option (List Char)), (∀ p, fs p = none) → link ≠ [] →
      link_has_protocol_or_zola (link ++ ['/']) = false →
      canonicalize_relative_path fs (link ++ ['/']) cur =
        canonicalize_relative_path fs link cur) ∧
    (∀ (fs : List Char → Option (List Char)) (link x : List Char)
      (cur : Option (List Char)), (∀ p, fs p = none) →
      link_has_protocol_or_zola (link ++ '#' :: x) = false → '/' ∉ x →
      ∃ pre, canonicalize_relative_path fs (link ++ '#' :: x) cur =
        pre ++ '#' :: x) ∧
    canonicalize_relative_path fsNone "some/path".toList
      (some "/base".toList) = "/base/some/path".toList ∧
    canonicalize_relative_path fsNone "./some/path".toList
      (some "/base".toList) = "/base/some/path".toList ∧
    canonicalize_relative_path fsNone "../some/path".toList
      (some "/base".toList) = "/some/path".toList ∧
    canonicalize_relative_path fsNone "/some/./path".toList
      (some "/base".toList) = "/some/path".toList ∧
    canonicalize_relative_path fsNone "some/../../path".toList
      (some "/base".toList) = "/path".toList ∧
    canonicalize_relative_path fsNone "/some/.././path/".toList
      (some "/base".toList) = "/path".toList ∧
    canonicalize_relative_path fsNone "/some/.././path#xyz".toList
      (some "/base".toList) = "/path#xyz".toList ∧
    canonicalize_relative_path fsNone "../some/path".toList
      (some "/base/second/file.md".toList) = "/base/some/path".toList := by
  refine ⟨?_, ?_, by decide, by decide, by decide, by decide, by decide,
    by decide, by decide, by decide⟩
  · intro fs link cur hfs hne hp
    have hpl : link_has_protocol_or_zola link = false := by
      cases h : link_has_protocol_or_zola link
      · rfl
      · rw [proto_append link ['/'] h] at hp
        exact absurd hp (by simp)
    unfold canonicalize_relative_path
    rw [hp, hpl]
    simp only [Bool.false_eq_true, if_false, hfs]
    unfold lexicalNormalize
    rw [combinedOf_append link ['/'] cur hne,
      pathComponents_append_slash _ (combinedOf_ne_nil link cur hne)]
  · intro fs link x cur hfs hp hx
    obtain ⟨s, hs⟩ := combinedOf_factor link ('#' :: x) cur
    unfold canonicalize_relative_path
    rw [hp]
    simp only [Bool.false_eq_true, if_false, hfs]
    rw [hs]
    exact lexicalNormalize_anchor s x hx

/-- Witness for C3: trailing-slash invariance at a concrete input. -/
theorem c3_canonicalize_lexical_laws_witness :
    canonicalize_relative_path fsNone ("some/path".toList ++ ['/'])
        (some "/base".toList) =
      canonicalize_relative_path fsNone "some/path".toList
        (some "/base".toList) :=
  c3_canonicalize_lexical_laws.1 fsNone "some/path".toList
    (some "/base".toList) (fun _ => rfl) (by decide) (by decide)

/-- C6: in the lexical normalization, `..` pops the most recently pushed
component and is a no-op on an empty or root-only accumulator: the result
of canonicalizing any link whose combined path is absolute still starts
with `/` (the root marker is never removed), the pop at an empty state is
a no-op, and excess `..` components are silently discarded. -/
theorem c6_parentdir_safety :
    (∀ (fs : List Char → Option (List Char)) (link : List Char)
      (cur : Option (List Char)), (∀ p, fs p = none) →
      link_has_protocol_or_zola link = false →
      isAbsolute (combinedOf link cur) = true →
      (canonicalize_relative_path fs link cur).head? = some '/') ∧
    (∀ b : Bool, stepComponent ⟨b, []⟩ PComponent.parentDir = ⟨b, []⟩) ∧
    canonicalize_relative_path fsNone "../../../a".toList
      (some "/base".toList) = "/a".toList := by
  refine ⟨?_, fun b => rfl, by decide⟩
  intro fs link cur hfs hp habs
  unfold canonicalize_relative_path
  rw [hp]
  simp only [Bool.false_eq_true, if_false, hfs]
  exact lexicalNormalize_head _ habs

/-- Witness for C6: an absolute link keeps its root marker. -/
theorem c6_parentdir_safety_witness :
    (canonicalize_relative_path fsNone "/a/../..".toList none).head? =
      some '/' :=
  c6_parentdir_safety.1 fsNone "/a/../..".toList none (fun _ => rfl)
    (by decide) (by decide)

/-- C9 counterexample: `canonicalize_relative_path` is not independent of
the filesystem state: with identical link and current page path, a
filesystem whose canonicalization succeeds (e.g. resolving a symlink)
gives a different result than one where it fails. -/
theorem c9_purity_counterexample :
    canonicalize_relative_path (fun _ => some "/elsewhere".toList)
        "some/path".toList (some "/base".toList) ≠
      canonicalize_relative_path fsNone "some/path".toList
        (some "/base".toList) := by decide

/-- C9 (amended): every operation other than the filesystem probe is a
pure function of its arguments (in this embedding they take no state at
all), and `canonicalize_relative_path` depends on the filesystem only
through the canonicalization outcome for the combined path: two calls
with identical arguments and identical probe outcome return identical
results. -/
theorem c9_purity_amended :
    ∀ (fs fs2 : List Char → Option (List Char)) (link : List Char)
      (cur : Option (List Char)),
      fs (combinedOf link cur) = fs2 (combinedOf link cur) →
      canonicalize_relative_path fs link cur =
        canonicalize_relative_path fs2 link cur := by
  intro fs fs2 link cur h
  unfold canonicalize_relative_path
  rw [h]

/-- Witness for the amended C9: two distinct oracles agreeing on the
combined path give the same result. -/
theorem c9_purity_amended_witness :
    canonicalize_relative_path
        (fun p => if p = "/base/some/path".toList
          then some "/r".toList else none)
        "some/path".toList (some "/base".toList) =
      canonicalize_relative_path (fun _ => some "/r".toList)
        "some/path".toList (some "/base".toList) :=
  c9_purity_amended
    (fun p => if p = "/base/some/path".toList then some "/r".toList else none)
    (fun _ => some "/r".toList) "some/path".toList
    (some "/base".toList) (by decide)
